import Mathlib

/-!
Verification of the venue deduplication engine
(`scripts/dedupe-venues.js`) of the gelblasteruk repository.

The script is shallowly embedded here:

* JS strings are `List Char`; `Option (List Char)` is a possibly
  absent string field.
* JS numbers are `JNum`: either `JNum.nan` (the IEEE NaN, which in JS
  still has `typeof === 'number'`) or `JNum.fin x` for a real value
  `x : ℝ`.  Arithmetic on `JNum` propagates `nan` exactly as IEEE
  arithmetic does on the operations the script uses; `Math.sqrt` of a
  negative argument yields NaN, and every comparison against NaN is
  false.
* A venue record is a structure of optional fields mirroring the
  object literal built by `merge`.

Every definition is transcribed from the source of
`scripts/dedupe-venues.js`; comments cite the corresponding lines.
-/

/-- A JavaScript number: NaN or a (real-valued idealisation of a)
finite double. -/
inductive JNum : Type where
  | nan : JNum
  | fin : ℝ → JNum

namespace JNum

/-- JS subtraction; NaN-propagating. -/
noncomputable def jsub : JNum → JNum → JNum
  | fin x, fin y => fin (x - y)
  | _, _ => nan

/-- JS addition; NaN-propagating. -/
noncomputable def jadd : JNum → JNum → JNum
  | fin x, fin y => fin (x + y)
  | _, _ => nan

/-- JS multiplication; NaN-propagating. -/
noncomputable def jmul : JNum → JNum → JNum
  | fin x, fin y => fin (x * y)
  | _, _ => nan

/-- JS division (used only with nonzero constant divisors in the
script); NaN-propagating. -/
noncomputable def jdiv : JNum → JNum → JNum
  | fin x, fin y => fin (x / y)
  | _, _ => nan

/-- Model of `Math.sin`. -/
noncomputable def jsin : JNum → JNum
  | fin x => fin (Real.sin x)
  | nan => nan

/-- Model of `Math.cos`. -/
noncomputable def jcos : JNum → JNum
  | fin x => fin (Real.cos x)
  | nan => nan

/-- Model of `Math.sqrt`: NaN on a negative argument, NaN-propagating. -/
noncomputable def jsqrt : JNum → JNum
  | fin x => if x < 0 then nan else fin (Real.sqrt x)
  | nan => nan

/-- Model of `Math.atan2` on real arguments (JS semantics by sign cases). -/
noncomputable def atan2R (y x : ℝ) : ℝ :=
  if 0 < x then Real.arctan (y / x)
  else if x < 0 then
    (if 0 ≤ y then Real.arctan (y / x) + Real.pi
     else Real.arctan (y / x) - Real.pi)
  else
    (if 0 < y then Real.pi / 2 else if y < 0 then -(Real.pi / 2) else 0)

/-- Model of `Math.atan2`; NaN-propagating. -/
noncomputable def jatan2 : JNum → JNum → JNum
  | fin y, fin x => fin (atan2R y x)
  | _, _ => nan

/-- JS `<=` against a real constant: false for NaN. -/
noncomputable def jle (a : JNum) (c : ℝ) : Bool :=
  match a with
  | nan => false
  | fin x => if x ≤ c then true else false

end JNum

open JNum

/-- ASCII lower-casing of one character (the venue names the script
manipulates; `String.prototype.toLowerCase`). -/
def lowC (c : Char) : Char :=
  if 'A' ≤ c ∧ c ≤ 'Z' then Char.ofNat (c.toNat + 32) else c

/-- The `.toLowerCase()` step over the character list. -/
def lowerStr (s : List Char) : List Char := s.map lowC

/-- The `.replace(/&/g, "and")` step. -/
def expandAmp : List Char → List Char
  | [] => []
  | c :: t => (if c = '&' then ['a', 'n', 'd'] else [c]) ++ expandAmp t

/-- Membership in the character class `[a-z0-9]`. -/
def isAlnum (c : Char) : Bool :=
  ('a' ≤ c && c ≤ 'z') || ('0' ≤ c && c ≤ '9')

/-- The `.replace(/[^a-z0-9]+/g, " ")` step: each maximal run of characters
outside `[a-z0-9]` becomes a single space.  The flag records whether we
are inside such a run (so only its first character emits the space). -/
def squashNA (inRun : Bool) : List Char → List Char
  | [] => []
  | c :: t =>
    if isAlnum c then c :: squashNA false t
    else if inRun then squashNA true t
    else ' ' :: squashNA true t

/-- The stopword set of `normalizeName`
(`/\b(the|london|city|camden|market)\b/g`). -/
def stopwords : List (List Char) :=
  ["the".toList, "london".toList, "city".toList, "camden".toList, "market".toList]

/-- Is this token one of the stopwords? -/
def isStop (t : List Char) : Bool := stopwords.contains t

/-- The stopword step `.replace(/\b(the|london|city|camden|market)\b/g, "")` on a string
whose characters are alphanumerics and spaces (the state of the string
at this point of the `normalizeName` chain): there, `\b` holds exactly
at the edges of each maximal alphanumeric run, so the regex deletes
precisely the space-delimited tokens equal to a stopword, leaving the
delimiting spaces in place.  `cur` accumulates the current token. -/
def rmStops (cur : List Char) : List Char → List Char
  | [] => if isStop cur then [] else cur
  | c :: t =>
    if c = ' ' then
      (if isStop cur then [] else cur) ++ ' ' :: rmStops [] t
    else rmStops (cur ++ [c]) t

/-- The `.replace(/\s+/g, " ")` step: each maximal run of whitespace becomes a
single space (at this point of the chain the only whitespace is `' '`). -/
def squashSp (inRun : Bool) : List Char → List Char
  | [] => []
  | c :: t =>
    if c = ' ' then
      (if inRun then squashSp true t else ' ' :: squashSp true t)
    else c :: squashSp false t

/-- The `.trim()` step. -/
def trimSp (s : List Char) : List Char :=
  ((s.dropWhile (fun c => c = ' ')).reverse.dropWhile (fun c => c = ' ')).reverse

/-- Embedding of `normalizeName` (dedupe-venues.js lines 15–24).  `none` models a
missing/null name; `!name` is also true for the empty string. -/
def normalizeName (name : Option (List Char)) : List Char :=
  match name with
  | none => []
  | some s =>
    if s = [] then []
    else trimSp (squashSp false (rmStops [] (squashNA false (expandAmp (lowerStr s)))))

/-- Whether `p` occurs as a contiguous prefix of `s`. -/
def isPrefixL : List Char → List Char → Bool
  | [], _ => true
  | _ :: _, [] => false
  | a :: as, b :: bs => a = b && isPrefixL as bs

/-- Model of `s.includes(p)`: whether `p` occurs contiguously inside `s`. -/
def isSubL (p : List Char) : List Char → Bool
  | [] => isPrefixL p []
  | c :: t => isPrefixL p (c :: t) || isSubL p t

/-- Embedding of `nameSimilar` (lines 26–32). -/
def nameSimilar (a b : Option (List Char)) : Bool :=
  let na := normalizeName a
  let nb := normalizeName b
  if na = [] || nb = [] then false
  else if na = nb then true
  else isSubL nb na || isSubL na nb

/-- Embedding of `haversineMeters` (lines 34–44), literally transcribed over `JNum`:
`toRad v = (v * Math.PI) / 180`, Earth radius `6371e3`. -/
noncomputable def haversineMeters (lat1 lon1 lat2 lon2 : JNum) : JNum :=
  let toRad := fun v => jdiv (jmul v (JNum.fin Real.pi)) (JNum.fin 180)
  let dLat := toRad (jsub lat2 lat1)
  let dLon := toRad (jsub lon2 lon1)
  let a :=
    jadd (jmul (jsin (jdiv dLat (JNum.fin 2))) (jsin (jdiv dLat (JNum.fin 2))))
      (jmul (jmul (jcos (toRad lat1)) (jcos (toRad lat2)))
        (jmul (jsin (jdiv dLon (JNum.fin 2))) (jsin (jdiv dLon (JNum.fin 2)))))
  let c := jmul (JNum.fin 2) (jatan2 (jsqrt a) (jsqrt (jsub (JNum.fin 1) a)))
  jmul (JNum.fin 6371000) c

/-- A venue record: the fields read and written by the script, in the
order of the object literal built by `merge` (lines 78–92). -/
structure Venue : Type where
  source : Option (List Char)
  category : Option (List Char)
  name : Option (List Char)
  brand : Option (List Char)
  url : Option (List Char)
  postcode : Option (List Char)
  lat : Option JNum
  lon : Option JNum
  phone : Option (List Char)
  rating : Option (List Char)
  price_level : Option (List Char)
  business_status : Option (List Char)
  opening_hours : Option (List Char)

instance : Inhabited Venue :=
  ⟨⟨none, none, none, none, none, none, none, none, none, none, none, none, none⟩⟩

/-- JS truthiness of an optional string field: absent, null and `''`
are falsy, every nonempty string is truthy. -/
def truthy : Option (List Char) → Bool
  | none => false
  | some s => !s.isEmpty

/-- Model of `x || y` on optional string fields. -/
def orS (x y : Option (List Char)) : Option (List Char) :=
  if truthy x then x else y

/-- Model of `x ?? y`: only null/absent falls through, so a present `0` (or NaN)
coordinate is kept. -/
def coal (x y : Option JNum) : Option JNum :=
  match x with
  | some v => some v
  | none => y

/-- Embedding of `sourceWeight` (lines 46–52). -/
def sourceWeight (s : Option (List Char)) : ℕ :=
  match s with
  | none => 0
  | some str =>
    if str = [] then 0
    else
      let v := lowerStr str
      if isSubL "google".toList v || isSubL "places".toList v || isSubL "gmaps".toList v then 3
      else if isSubL "osm".toList v || isSubL "openstreetmap".toList v then 2
      else 1

/-- Embedding of `richnessScore` (lines 54–63). -/
def richnessScore (v : Venue) : ℕ :=
  (if truthy v.url then 1 else 0) + (if truthy v.postcode then 1 else 0) +
    (if truthy v.phone then 1 else 0) + (if truthy v.rating then 1 else 0) +
    (if truthy v.price_level then 1 else 0) + sourceWeight v.source

/-- Does `choosePreferred a b` (lines 65–73) return `b`?  The source
compares `chosen === a` by reference afterwards; since `choosePreferred`
always returns one of its two (distinct) arguments, that reference test
is captured by this boolean. -/
def preferB (a b : Venue) : Bool :=
  let aw := sourceWeight a.source
  let bw := sourceWeight b.source
  if aw ≠ bw then decide (bw > aw) else decide (richnessScore b > richnessScore a)

/-- Embedding of `choosePreferred` (lines 65–73). -/
def choosePreferred (a b : Venue) : Venue :=
  if preferB a b then b else a

/-- The record `merge` treats as secondary (`chosen === a ? b : a`). -/
def secondary (a b : Venue) : Venue :=
  if preferB a b then a else b

/-- Embedding of `merge` (lines 75–93): descriptive fields by `||`, coordinates by
`??`, the chosen record's value preferred. -/
def merge (a b : Venue) : Venue :=
  let chosen := choosePreferred a b
  let other := secondary a b
  { source := orS chosen.source other.source
    category := orS chosen.category other.category
    name := orS chosen.name other.name
    brand := orS chosen.brand other.brand
    url := orS chosen.url other.url
    postcode := orS chosen.postcode other.postcode
    lat := coal chosen.lat other.lat
    lon := coal chosen.lon other.lon
    phone := orS chosen.phone other.phone
    rating := orS chosen.rating other.rating
    price_level := orS chosen.price_level other.price_level
    business_status := orS chosen.business_status other.business_status
    opening_hours := orS chosen.opening_hours other.opening_hours }

/-- Model of `Array.prototype.findIndex`: index of the first element satisfying
`p`, if any. -/
def findIdxA {α : Type} (p : α → Bool) : List α → Option ℕ
  | [] => none
  | x :: t => if p x then some 0 else (findIdxA p t).map (fun i => i + 1)

/-- The callback of `out.findIndex` inside `dedupe` (lines 102–108),
with the incoming record `v` in scope: an existing entry `o` matches
when it has numeric coordinates and either `d <= 60`, or `d <= 200` and
the names are similar.  (Inside `dedupe`, `v` itself is guaranteed to
have numeric coordinates by the line-98 guard; the catch-all branch for
`v` is unreachable there.) -/
noncomputable def isSame (v o : Venue) : Bool :=
  match o.lat, o.lon with
  | some olat, some olon =>
    match v.lat, v.lon with
    | some vlat, some vlon =>
      let d := haversineMeters vlat vlon olat olon
      if jle d 60 then true
      else if jle d 200 && nameSimilar v.name o.name then true
      else false
    | _, _ => false
  | _, _ => false

/-- One iteration of the `for (const v of list)` loop of `dedupe`
(lines 97–111): a record without numeric coordinates is pushed
unchanged; otherwise the first matching entry is replaced in place by
the merge, or the record is appended. -/
noncomputable def dedupeStep (out : List Venue) (v : Venue) : List Venue :=
  match v.lat, v.lon with
  | some _, some _ =>
    match findIdxA (fun o => isSame v o) out with
    | some i => out.set i (merge (out.getD i default) v)
    | none => out ++ [v]
  | _, _ => out ++ [v]

/-- Embedding of `dedupe` (lines 95–113). -/
noncomputable def dedupe (l : List Venue) : List Venue :=
  l.foldl dedupeStep []

/-- Does the record have numeric `lat` and `lon` (the line-98 guard)? -/
def grpB (v : Venue) : Bool :=
  match v.lat, v.lon with
  | some _, some _ => true
  | _, _ => false

/-! ### Basic lemmas about the JS-number operations -/

namespace JNum

@[simp] theorem jsub_nan_left (y : JNum) : jsub nan y = nan := by cases y <;> rfl

@[simp] theorem jsub_nan_right (x : JNum) : jsub x nan = nan := by cases x <;> rfl

@[simp] theorem jadd_nan_left (y : JNum) : jadd nan y = nan := by cases y <;> rfl

@[simp] theorem jadd_nan_right (x : JNum) : jadd x nan = nan := by cases x <;> rfl

@[simp] theorem jmul_nan_left (y : JNum) : jmul nan y = nan := by cases y <;> rfl

@[simp] theorem jmul_nan_right (x : JNum) : jmul x nan = nan := by cases x <;> rfl

@[simp] theorem jdiv_nan_left (y : JNum) : jdiv nan y = nan := by cases y <;> rfl

@[simp] theorem jdiv_nan_right (x : JNum) : jdiv x nan = nan := by cases x <;> rfl

@[simp] theorem jsin_nan : jsin nan = nan := rfl

@[simp] theorem jcos_nan : jcos nan = nan := rfl

@[simp] theorem jsqrt_nan : jsqrt nan = nan := rfl

@[simp] theorem jatan2_nan_left (x : JNum) : jatan2 nan x = nan := by cases x <;> rfl

@[simp] theorem jatan2_nan_right (y : JNum) : jatan2 y nan = nan := by cases y <;> rfl

@[simp] theorem jle_nan (c : ℝ) : jle nan c = false := rfl

theorem jle_fin_iff {x c : ℝ} : jle (fin x) c = true ↔ x ≤ c := by
  by_cases h : x ≤ c <;> simp [jle, h]

theorem jle_fin_of_le {x c : ℝ} (h : x ≤ c) : jle (fin x) c = true :=
  jle_fin_iff.2 h

theorem jle_fin_of_lt {x c : ℝ} (h : c < x) : jle (fin x) c = false := by
  simp [jle, not_le.2 h]

end JNum

/-- NaN anywhere among the four inputs makes the haversine NaN (every
IEEE operation in the chain propagates it). -/
theorem haversine_nan {lat1 lon1 lat2 lon2 : JNum}
    (h : lat1 = nan ∨ lon1 = nan ∨ lat2 = nan ∨ lon2 = nan) :
    haversineMeters lat1 lon1 lat2 lon2 = nan := by
  rcases h with h | h | h | h <;> subst h <;> simp [haversineMeters]

/-! ### `findIdxA` (the `findIndex` of the runtime) -/

theorem findIdxA_eq_none_iff {α : Type} {p : α → Bool} {l : List α} :
    findIdxA p l = none ↔ ∀ x ∈ l, p x = false := by
  induction l with
  | nil => simp [findIdxA]
  | cons a t ih =>
    by_cases h : p a
    · simp [findIdxA, h]
    · simp only [findIdxA, h, if_false, Bool.false_eq_true, List.mem_cons]
      constructor
      · intro hn x hx
        rcases hx with rfl | hx
        · exact Bool.eq_false_iff.2 h
        · exact ih.1 (by cases hfi : findIdxA p t <;> simp [hfi] at hn ⊢) x hx
      · intro hall
        have : findIdxA p t = none := ih.2 (fun x hx => hall x (Or.inr hx))
        simp [this]

theorem findIdxA_some {α : Type} {p : α → Bool} {l : List α} {i : ℕ}
    (h : findIdxA p l = some i) (d : α) :
    i < l.length ∧ p (l.getD i d) = true := by
  induction l generalizing i with
  | nil => simp [findIdxA] at h
  | cons a t ih =>
    by_cases hp : p a
    · simp [findIdxA, hp] at h
      subst h
      simpa [List.getD] using hp
    · simp only [findIdxA, hp, if_false, Bool.false_eq_true, Option.map_eq_some'] at h
      obtain ⟨j, hj, rfl⟩ := h
      obtain ⟨hlen, hp'⟩ := ih hj
      exact ⟨Nat.succ_lt_succ hlen, by simpa [List.getD] using hp'⟩

/-- The first match, when it exists, is at the first matching position:
everything strictly before it fails the predicate. -/
theorem findIdxA_some_first {α : Type} {p : α → Bool} {l : List α} {i : ℕ}
    (h : findIdxA p l = some i) (d : α) :
    ∀ j < i, p (l.getD j d) = false := by
  induction l generalizing i with
  | nil => simp [findIdxA] at h
  | cons a t ih =>
    by_cases hp : p a
    · simp [findIdxA, hp] at h
      omega
    · simp only [findIdxA, hp, if_false, Bool.false_eq_true, Option.map_eq_some'] at h
      obtain ⟨k, hk, rfl⟩ := h
      intro j hj
      cases j with
      | zero => simpa [List.getD] using Bool.eq_false_iff.2 hp
      | succ j =>
        have := ih hk j (Nat.lt_of_succ_lt_succ hj)
        simpa [List.getD] using this

/-! ### Correctness of the `includes` model -/

/-- The predicate that `p` occurs contiguously inside `s` (the semantics of
`String.prototype.includes`). -/
def occursIn (p s : List Char) : Prop := ∃ u v, s = u ++ p ++ v

theorem isPrefixL_iff {p s : List Char} :
    isPrefixL p s = true ↔ ∃ t, s = p ++ t := by
  induction p generalizing s with
  | nil => simp [isPrefixL]
  | cons a as ih =>
    cases s with
    | nil => simp [isPrefixL]
    | cons b bs =>
      simp only [isPrefixL, Bool.and_eq_true, decide_eq_true_eq, ih, List.cons_append,
        List.cons.injEq]
      constructor
      · rintro ⟨rfl, t, rfl⟩; exact ⟨t, rfl, rfl⟩
      · rintro ⟨t, rfl, rfl⟩; exact ⟨rfl, t, rfl⟩

theorem isSubL_iff {p s : List Char} : isSubL p s = true ↔ occursIn p s := by
  induction s with
  | nil =>
    simp only [isSubL, isPrefixL_iff, occursIn]
    constructor
    · rintro ⟨t, ht⟩
      exact ⟨[], t, by simpa using ht⟩
    · rintro ⟨u, v, huv⟩
      have hu : u = [] := by
        cases u with
        | nil => rfl
        | cons x xs => simp at huv
      subst hu
      exact ⟨v, by simpa using huv⟩
  | cons c t ih =>
    simp only [isSubL, Bool.or_eq_true, isPrefixL_iff, ih, occursIn]
    constructor
    · rintro (⟨w, hw⟩ | ⟨u, v, huv⟩)
      · exact ⟨[], w, by simpa using hw⟩
      · exact ⟨c :: u, v, by simp [huv]⟩
    · rintro ⟨u, v, huv⟩
      cases u with
      | nil => exact Or.inl ⟨v, by simpa using huv⟩
      | cons x xs =>
        simp only [List.cons_append, List.cons.injEq] at huv
        exact Or.inr ⟨xs, v, huv.2⟩

/-! ### Concrete values of the haversine -/

open Real in
/-- Identical coordinates are at distance `0` (and in particular always
within the tight radius). -/
theorem haversine_self (a b : ℝ) :
    haversineMeters (JNum.fin a) (JNum.fin b) (JNum.fin a) (JNum.fin b) = JNum.fin 0 := by
  have h0 : ¬ ((0 : ℝ) < 0) := lt_irrefl 0
  simp only [haversineMeters, jsub, jmul, jdiv, jadd, jsin, jcos, sub_self, zero_mul,
    zero_div, Real.sin_zero, mul_zero, zero_add, add_zero]
  rw [jsqrt]
  simp only [not_lt.2 (le_refl (0 : ℝ)), if_neg h0, Real.sqrt_zero]
  norm_num
  rw [jsqrt]
  norm_num [Real.sqrt_one, jatan2, atan2R, Real.arctan_zero, jmul]

open Real in
/-- On the equator (`lat = 0` on both sides) the haversine reduces to
arc length along the equator: `R * |Δlon| * π / 180` for `|Δlon| < 180`
degrees. -/
theorem haversine_equator (l1 l2 : ℝ) (h : |l2 - l1| < 180) :
    haversineMeters (JNum.fin 0) (JNum.fin l1) (JNum.fin 0) (JNum.fin l2)
      = JNum.fin (6371000 * (|l2 - l1| * Real.pi / 180)) := by
  have hpi : (0 : ℝ) < Real.pi := Real.pi_pos
  set v : ℝ := (l2 - l1) * Real.pi / 180 / 2 with hv
  set w : ℝ := |l2 - l1| * Real.pi / 180 / 2 with hw
  have hwv : |v| = w := by
    rw [hv, hw, abs_div, abs_div, abs_mul]
    rw [abs_of_pos hpi, abs_of_pos (by norm_num : (0:ℝ) < 180), abs_of_pos (by norm_num : (0:ℝ) < 2)]
  have hw0 : 0 ≤ w := hwv ▸ abs_nonneg v
  have hw2 : w < Real.pi / 2 := by
    rw [hw]
    have : |l2 - l1| * Real.pi < 180 * Real.pi := by
      exact mul_lt_mul_of_pos_right h hpi
    calc |l2 - l1| * Real.pi / 180 / 2 < 180 * Real.pi / 180 / 2 := by
          apply div_lt_div_of_pos_right _ (by norm_num)
          apply div_lt_div_of_pos_right this (by norm_num)
      _ = Real.pi / 2 := by ring
  have hsv : Real.sin v * Real.sin v = Real.sin w * Real.sin w := by
    rcases abs_cases v with ⟨hav, _⟩ | ⟨hav, _⟩
    · rw [← hwv, hav]
    · rw [← hwv, hav, Real.sin_neg]; ring
  have hcv : Real.cos v = Real.cos w := by rw [← hwv, Real.cos_abs]
  have hsin_nonneg : 0 ≤ Real.sin w :=
    Real.sin_nonneg_of_nonneg_of_le_pi hw0 (le_of_lt (hw2.trans (by linarith)))
  have hcos_pos : 0 < Real.cos w :=
    Real.cos_pos_of_mem_Ioo ⟨by linarith, hw2⟩
  have hs1 : ¬ (Real.sin v * Real.sin v < 0) := not_lt.2 (mul_self_nonneg _)
  have hsq1 : Real.sqrt (Real.sin v * Real.sin v) = Real.sin w := by
    rw [hsv, Real.sqrt_mul_self hsin_nonneg]
  have hone : (1 : ℝ) - Real.sin v * Real.sin v = Real.cos w * Real.cos w := by
    have := Real.sin_sq_add_cos_sq w
    rw [hsv]; nlinarith [this]
  have hs2 : ¬ ((1 : ℝ) - Real.sin v * Real.sin v < 0) := by
    rw [hone]; exact not_lt.2 (mul_self_nonneg _)
  have hsq2 : Real.sqrt (1 - Real.sin v * Real.sin v) = Real.cos w := by
    rw [hone, Real.sqrt_mul_self (le_of_lt hcos_pos)]
  have hat : atan2R (Real.sin w) (Real.cos w) = w := by
    rw [atan2R, if_pos hcos_pos, ← Real.tan_eq_sin_div_cos,
      Real.arctan_tan (by linarith) hw2]
  simp only [haversineMeters, jsub, jmul, jdiv, jadd, jsin, jcos, sub_self, zero_mul,
    zero_div, Real.sin_zero, mul_zero, zero_add, add_zero, Real.cos_zero, one_mul]
  rw [jsqrt]
  rw [if_neg hs1]
  rw [jsqrt]
  rw [if_neg hs2, hsq1, hsq2]
  simp only [jatan2]
  rw [hat]
  congr 1
  rw [hw]
  ring

/-! ### The matcher -/

/-- A record with a NaN coordinate on the incoming side never matches:
the distance is NaN and both threshold comparisons are false. -/
theorem isSame_nan_left {v : Venue} (o : Venue)
    (h : v.lat = some JNum.nan ∨ v.lon = some JNum.nan) : isSame v o = false := by
  cases ho1 : o.lat with
  | none => simp [isSame, ho1]
  | some olat =>
    cases ho2 : o.lon with
    | none => simp [isSame, ho1, ho2]
    | some olon =>
      rcases h with h | h
      · cases hv2 : v.lon with
        | none => simp [isSame, ho1, ho2, h, hv2]
        | some vlon =>
          simp [isSame, ho1, ho2, h, hv2, haversine_nan (Or.inl rfl)]
      · cases hv1 : v.lat with
        | none => simp [isSame, ho1, ho2, h, hv1]
        | some vlat =>
          simp [isSame, ho1, ho2, h, hv1, haversine_nan (Or.inr (Or.inl rfl))]

/-- A record with a NaN coordinate on the existing side is never chosen
as a match target. -/
theorem isSame_nan_right (w : Venue) {o : Venue}
    (h : o.lat = some JNum.nan ∨ o.lon = some JNum.nan) : isSame w o = false := by
  rcases h with h | h
  · cases ho2 : o.lon with
    | none => simp [isSame, h, ho2]
    | some olon =>
      cases hv1 : w.lat with
      | none => simp [isSame, h, ho2, hv1]
      | some vlat =>
        cases hv2 : w.lon with
        | none => simp [isSame, h, ho2, hv1, hv2]
        | some vlon =>
          simp [isSame, h, ho2, hv1, hv2, haversine_nan (Or.inr (Or.inr (Or.inl rfl)))]
  · cases ho1 : o.lat with
    | none => simp [isSame, h, ho1]
    | some olat =>
      cases hv1 : w.lat with
      | none => simp [isSame, h, ho1, hv1]
      | some vlat =>
        cases hv2 : w.lon with
        | none => simp [isSame, h, ho1, hv1, hv2]
        | some vlon =>
          simp [isSame, h, ho1, hv1, hv2, haversine_nan (Or.inr (Or.inr (Or.inr rfl)))]

/-- C2: for records that both carry numeric coordinates, the matcher
judges them the same venue exactly when the haversine distance is a
real number at most 60 m (regardless of names), or at most 200 m with
similar names; beyond 200 m (and for NaN distances) it never matches. -/
theorem matcher_radius_spec (v o : Venue) (vlat vlon olat olon : JNum)
    (hv1 : v.lat = some vlat) (hv2 : v.lon = some vlon)
    (ho1 : o.lat = some olat) (ho2 : o.lon = some olon) :
    (isSame v o = true ↔
      ∃ x : ℝ, haversineMeters vlat vlon olat olon = JNum.fin x ∧
        (x ≤ 60 ∨ (x ≤ 200 ∧ nameSimilar v.name o.name = true)))
    ∧ (∀ x : ℝ, haversineMeters vlat vlon olat olon = JNum.fin x → 200 < x →
        isSame v o = false) := by
  simp only [isSame, hv1, hv2, ho1, ho2]
  cases hd : haversineMeters vlat vlon olat olon with
  | nan => simp
  | fin x =>
    constructor
    · by_cases h60 : x ≤ 60
      · simp [jle_fin_of_le h60, h60]
      · by_cases h200 : x ≤ 200
        · by_cases hns : nameSimilar v.name o.name = true
          · simp [jle_fin_of_lt (not_le.1 h60), jle_fin_of_le h200, hns, h60, h200]
          · simp [jle_fin_of_lt (not_le.1 h60), jle_fin_of_le h200, hns, h60, h200]
        · simp [jle_fin_of_lt (not_le.1 h60), jle_fin_of_lt (not_le.1 h200), h60, h200]
    · intro y hy h200y
      injection hy with hxy
      subst hxy
      simp [jle_fin_of_lt (by linarith : (60 : ℝ) < x),
        jle_fin_of_lt (by linarith : (200 : ℝ) < x)]

/-- Closed witness for `matcher_radius_spec` at two concrete records at
identical coordinates. -/
theorem matcher_radius_spec_witness :
    let v : Venue := ⟨some "osm".toList, none, some "Roxy Lanes".toList, none, none, none,
      some (JNum.fin 10), some (JNum.fin 20), none, none, none, none, none⟩
    let o : Venue := ⟨some "google".toList, none, some "Gravity".toList, none, none, none,
      some (JNum.fin 10), some (JNum.fin 20), none, none, none, none, none⟩
    (isSame v o = true ↔
      ∃ x : ℝ, haversineMeters (JNum.fin 10) (JNum.fin 20) (JNum.fin 10) (JNum.fin 20) = JNum.fin x ∧
        (x ≤ 60 ∨ (x ≤ 200 ∧ nameSimilar v.name o.name = true)))
    ∧ (∀ x : ℝ, haversineMeters (JNum.fin 10) (JNum.fin 20) (JNum.fin 10) (JNum.fin 20) = JNum.fin x →
        200 < x → isSame v o = false) :=
  matcher_radius_spec _ _ _ _ _ _ rfl rfl rfl rfl

/-- C8: `nameSimilar` holds exactly when neither name normalizes to the
empty string and the normalized names are equal or one occurs inside
the other. -/
theorem nameSimilar_spec (a b : Option (List Char)) :
    nameSimilar a b = true ↔
      (normalizeName a ≠ [] ∧ normalizeName b ≠ [] ∧
        (normalizeName a = normalizeName b ∨
          occursIn (normalizeName b) (normalizeName a) ∨
          occursIn (normalizeName a) (normalizeName b))) := by
  simp only [nameSimilar]
  by_cases ha : normalizeName a = []
  · simp [ha]
  · by_cases hb : normalizeName b = []
    · simp [ha, hb]
    · by_cases heq : normalizeName a = normalizeName b
      · simp [ha, hb, heq]
      · simp [ha, hb, heq, isSubL_iff]

/-- Closed witness for `nameSimilar_spec`: after stopword stripping the
two names agree. -/
theorem nameSimilar_spec_witness :
    nameSimilar (some "Venue X".toList) (some "Venue X Camden".toList) = true ↔
      (normalizeName (some "Venue X".toList) ≠ [] ∧
        normalizeName (some "Venue X Camden".toList) ≠ [] ∧
        (normalizeName (some "Venue X".toList) = normalizeName (some "Venue X Camden".toList) ∨
          occursIn (normalizeName (some "Venue X Camden".toList)) (normalizeName (some "Venue X".toList)) ∨
          occursIn (normalizeName (some "Venue X".toList)) (normalizeName (some "Venue X Camden".toList)))) :=
  nameSimilar_spec _ _

/-- C10: `dedupe` handles NaN coordinates without failing: a record
whose `lat` or `lon` is NaN still has `typeof === 'number'`, so it
takes the groupable path, but it matches no existing entry (its
haversine distance is NaN, so both threshold comparisons are false) and
is appended as a standalone entry; conversely a NaN-coordinate entry of
the running output is never chosen as a merge target. -/
theorem dedupe_nan_total_spec :
    (∀ (out : List Venue) (v : Venue), grpB v = true →
      (v.lat = some JNum.nan ∨ v.lon = some JNum.nan) →
      dedupeStep out v = out ++ [v])
    ∧ (∀ w o : Venue, (o.lat = some JNum.nan ∨ o.lon = some JNum.nan) →
      isSame w o = false) := by
  constructor
  · intro out v hg h
    have hnone : findIdxA (fun o => isSame v o) out = none :=
      findIdxA_eq_none_iff.2 (fun o _ => isSame_nan_left o h)
    cases hv1 : v.lat with
    | none => simp [grpB, hv1] at hg
    | some vlat =>
      cases hv2 : v.lon with
      | none => simp [grpB, hv1, hv2] at hg
      | some vlon => simp [dedupeStep, hv1, hv2, hnone]
  · intro w o h
    exact isSame_nan_right w h

/-- Closed witness for `dedupe_nan_total_spec`: a concrete NaN-latitude
record is appended behind an existing entry instead of being merged
with it. -/
theorem dedupe_nan_total_spec_witness :
    let o : Venue := ⟨some "google".toList, none, some "Roxy Lanes".toList, none, none, none,
      some (JNum.fin 0), some (JNum.fin 0), none, none, none, none, none⟩
    let v : Venue := ⟨some "osm".toList, none, some "Roxy Lanes".toList, none, none, none,
      some JNum.nan, some (JNum.fin 0), none, none, none, none, none⟩
    dedupeStep [o] v = [o, v] ∧ isSame o v = false := by
  intro o v
  refine ⟨dedupe_nan_total_spec.1 [o] v rfl (Or.inl rfl), dedupe_nan_total_spec.2 o v (Or.inl rfl)⟩

/-! ### Case analysis of one deduplication step -/

/-- A record failing the numeric-coordinates guard is pushed unchanged. -/
theorem dedupeStep_ungrp {v : Venue} (out : List Venue) (h : grpB v = false) :
    dedupeStep out v = out ++ [v] := by
  cases h1 : v.lat with
  | none => simp [dedupeStep, h1]
  | some vlat =>
    cases h2 : v.lon with
    | none => simp [dedupeStep, h1, h2]
    | some vlon => simp [grpB, h1, h2] at h

/-- A groupable record with no matching entry is appended. -/
theorem dedupeStep_grp_none {v : Venue} {out : List Venue} (h : grpB v = true)
    (hf : findIdxA (fun o => isSame v o) out = none) :
    dedupeStep out v = out ++ [v] := by
  cases h1 : v.lat with
  | none => simp [grpB, h1] at h
  | some vlat =>
    cases h2 : v.lon with
    | none => simp [grpB, h1, h2] at h
    | some vlon => simp [dedupeStep, h1, h2, hf]

/-- A groupable record whose first match is at index `i` replaces that
slot by the merge of the running record with the incoming one. -/
theorem dedupeStep_grp_some {v : Venue} {out : List Venue} {i : ℕ} (h : grpB v = true)
    (hf : findIdxA (fun o => isSame v o) out = some i) :
    dedupeStep out v = out.set i (merge (out.getD i default) v) := by
  cases h1 : v.lat with
  | none => simp [grpB, h1] at h
  | some vlat =>
    cases h2 : v.lon with
    | none => simp [grpB, h1, h2] at h
    | some vlon => simp [dedupeStep, h1, h2, hf]

/-- A match target always has numeric coordinates (the callback's first
test). -/
theorem isSame_grp_target {v o : Venue} (h : isSame v o = true) : grpB o = true := by
  cases h1 : o.lat with
  | none => simp [isSame, h1] at h
  | some olat =>
    cases h2 : o.lon with
    | none => simp [isSame, h1, h2] at h
    | some olon => simp [grpB, h1, h2]

/-- Merging two records with numeric coordinates yields a record with
numeric coordinates (`??` keeps the chosen record's coordinate). -/
theorem grpB_merge {a b : Venue} (ha : grpB a = true) (hb : grpB b = true) :
    grpB (merge a b) = true := by
  cases ha1 : a.lat with
  | none => simp [grpB, ha1] at ha
  | some al =>
    cases ha2 : a.lon with
    | none => simp [grpB, ha1, ha2] at ha
    | some alo =>
      cases hb1 : b.lat with
      | none => simp [grpB, hb1] at hb
      | some bl =>
        cases hb2 : b.lon with
        | none => simp [grpB, hb1, hb2] at hb
        | some blo =>
          cases hp : preferB a b <;>
            simp [grpB, merge, choosePreferred, secondary, hp, coal, ha1, ha2, hb1, hb2]

/-- Replacing a filtered-out element by a filtered-out element leaves a
filter unchanged. -/
theorem filter_set_of_false {α : Type} {p : α → Bool} {l : List α} {i : ℕ} {m : α} (d : α)
    (hi : i < l.length) (h1 : p (l.getD i d) = false) (h2 : p m = false) :
    (l.set i m).filter p = l.filter p := by
  induction l generalizing i with
  | nil => simp at hi
  | cons a t ih =>
    cases i with
    | zero =>
      simp only [List.getD_cons_zero] at h1
      simp [List.set, h1, h2]
    | succ j =>
      simp only [List.getD_cons_succ] at h1
      have := ih (Nat.lt_of_succ_lt_succ hi) h1
      simp only [List.set]
      cases hpa : p a <;> simp [hpa, this]

/-- The filter invariant behind the ungroupable pass-through. -/
theorem dedupe_foldl_filter (l acc : List Venue) :
    (List.foldl dedupeStep acc l).filter (fun v => !grpB v)
      = acc.filter (fun v => !grpB v) ++ l.filter (fun v => !grpB v) := by
  induction l generalizing acc with
  | nil => simp
  | cons v t ih =>
    simp only [List.foldl_cons]
    rw [ih]
    have hstep : (dedupeStep acc v).filter (fun v => !grpB v)
        = acc.filter (fun v => !grpB v) ++ (if !grpB v then [v] else []) := by
      cases hg : grpB v with
      | false =>
        rw [dedupeStep_ungrp acc hg]
        simp [hg]
      | true =>
        cases hf : findIdxA (fun o => isSame v o) acc with
        | none =>
          rw [dedupeStep_grp_none hg hf]
          simp [hg]
        | some i =>
          rw [dedupeStep_grp_some hg hf]
          obtain ⟨hlen, hps⟩ := findIdxA_some hf default
          have htgt : grpB (acc.getD i default) = true := isSame_grp_target hps
          have hmerged : grpB (merge (acc.getD i default) v) = true :=
            grpB_merge htgt hg
          rw [filter_set_of_false default hlen (by simpa [List.getD] using htgt) (by simpa [List.getD] using hmerged)]
          simp [hg]
    rw [hstep]
    cases hg : grpB v <;> simp [hg]

/-- C5: every input record without numeric coordinates passes through
`dedupe` unchanged and in order (the sequence of ungroupable records of
the output is exactly that of the input), and such a record is never a
match target, so it is never merged with anything. -/
theorem ungroupable_passthrough_spec :
    (∀ xs : List Venue,
      (dedupe xs).filter (fun v => !grpB v) = xs.filter (fun v => !grpB v))
    ∧ (∀ v o : Venue, grpB o = false → isSame v o = false) := by
  constructor
  · intro xs
    have := dedupe_foldl_filter xs []
    simpa [dedupe] using this
  · intro v o hg
    cases h1 : o.lat with
    | none => simp [isSame, h1]
    | some olat =>
      cases h2 : o.lon with
      | none => simp [isSame, h1, h2]
      | some olon => simp [grpB, h1, h2] at hg

/-- Closed witness for `ungroupable_passthrough_spec`: a record with a
missing latitude survives `dedupe` verbatim and is not a match target
even for an identically named record. -/
theorem ungroupable_passthrough_spec_witness :
    let u : Venue := ⟨some "manual".toList, none, some "Roxy Lanes".toList, none, none, none,
      none, some (JNum.fin 0), none, none, none, none, none⟩
    let w : Venue := ⟨some "google".toList, none, some "Roxy Lanes".toList, none, none, none,
      some (JNum.fin 0), some (JNum.fin 0), none, none, none, none, none⟩
    (dedupe [u]).filter (fun v => !grpB v) = [u].filter (fun v => !grpB v)
      ∧ isSame w u = false := by
  intro u w
  exact ⟨ungroupable_passthrough_spec.1 [u], ungroupable_passthrough_spec.2 w u rfl⟩

/-! ### Order preservation (first-appearance order) -/

/-- Pair each input record with its position. -/
def idxFrom (n : ℕ) : List Venue → List (ℕ × Venue)
  | [] => []
  | x :: t => (n, x) :: idxFrom (n + 1) t

/-- Variant of `dedupeStep` instrumented with the input position at which each
output slot was created: an appended record carries its own position,
and a merge keeps the slot's original (first-seen) position. -/
noncomputable def annStep (acc : List (ℕ × Venue)) (p : ℕ × Venue) : List (ℕ × Venue) :=
  match p.2.lat, p.2.lon with
  | some _, some _ =>
    match findIdxA (fun q => isSame p.2 q.2) acc with
    | some i => acc.set i ((acc.getD i (0, default)).1, merge (acc.getD i (0, default)).2 p.2)
    | none => acc ++ [p]
  | _, _ => acc ++ [p]

/-- Variant of `dedupe` instrumented with first-seen input positions. -/
noncomputable def dedupeAnn (l : List Venue) : List (ℕ × Venue) :=
  List.foldl annStep [] (idxFrom 0 l)

theorem findIdxA_map {α β : Type} (f : α → β) (p : β → Bool) (l : List α) :
    findIdxA p (l.map f) = findIdxA (fun x => p (f x)) l := by
  induction l with
  | nil => rfl
  | cons a t ih => by_cases h : p (f a) <;> simp [findIdxA, h, ih]

theorem set_getD_self {α : Type} (l : List α) (i : ℕ) (d : α) :
    l.set i (l.getD i d) = l := by
  induction l generalizing i with
  | nil => rfl
  | cons a t ih =>
    cases i with
    | zero => rfl
    | succ j =>
      show a :: t.set j (t.getD j d) = a :: t
      rw [ih]

theorem getD_mem {α : Type} {l : List α} {i : ℕ} (hi : i < l.length) (d : α) :
    l.getD i d ∈ l := by
  induction l generalizing i with
  | nil => simp at hi
  | cons a t ih =>
    cases i with
    | zero => simp [List.getD]
    | succ j =>
      have := ih (Nat.lt_of_succ_lt_succ hi)
      exact List.mem_cons_of_mem a this

/-- The plain fold is the snd-projection of the instrumented fold. -/
theorem annStep_snd (acc : List (ℕ × Venue)) (n : ℕ) (v : Venue) :
    dedupeStep (acc.map Prod.snd) v = (annStep acc (n, v)).map Prod.snd := by
  cases h1 : v.lat with
  | none => simp [dedupeStep, annStep, h1]
  | some vlat =>
    cases h2 : v.lon with
    | none => simp [dedupeStep, annStep, h1, h2]
    | some vlon =>
      have hfind : findIdxA (fun o => isSame v o) (acc.map Prod.snd)
          = findIdxA (fun q => isSame v q.2) acc := findIdxA_map _ _ _
      cases hf : findIdxA (fun q => isSame v q.2) acc with
      | none => simp [dedupeStep, annStep, h1, h2, hfind, hf]
      | some i =>
        have hg : (acc.map Prod.snd).getD i default = (acc.getD i (0, default)).2 := by
          have := List.getD_map (n := i) Prod.snd (l := acc) (d := ((0 : ℕ), (default : Venue)))
          simpa using this
        simp only [dedupeStep, annStep, h1, h2, hfind, hf, List.map_set]
        rw [hg]

/-- Appending the current record at position `n` preserves the position
invariants. -/
theorem ann_append_invariant (acc : List (ℕ × Venue)) (n : ℕ) (v : Venue)
    (hbound : ∀ q ∈ acc, q.1 < n)
    (hchain : List.Chain' (· < ·) (acc.map Prod.fst)) :
    (∀ q ∈ acc ++ [(n, v)], q.1 < n + 1)
      ∧ List.Chain' (· < ·) ((acc ++ [(n, v)]).map Prod.fst) := by
  constructor
  · intro q hq
    rcases List.mem_append.1 hq with hq | hq
    · exact (hbound q hq).trans (Nat.lt_succ_self n)
    · rcases List.mem_singleton.1 hq with rfl
      exact Nat.lt_succ_self n
  · rw [List.map_append]
    rw [List.chain'_append]
    refine ⟨hchain, List.chain'_singleton _, ?_⟩
    intro x hx y hy
    have hx2 : (acc.map Prod.fst).getLast? = some x := hx
    have hy2 : ([(n, v)].map Prod.fst).head? = some y := hy
    have hyn : y = n := by simpa using hy2.symm
    subst hyn
    have hx' : x ∈ acc.map Prod.fst := List.mem_of_getLast?_eq_some hx2
    obtain ⟨q, hq, hqx⟩ := List.mem_map.1 hx'
    rw [← hqx]
    exact hbound q hq

/-- Positions recorded by the instrumented fold stay below the running
input position and strictly increase along the output. -/
theorem annFold_invariant (l : List Venue) (acc : List (ℕ × Venue)) (n : ℕ)
    (hbound : ∀ q ∈ acc, q.1 < n)
    (hchain : List.Chain' (· < ·) (acc.map Prod.fst)) :
    (∀ q ∈ List.foldl annStep acc (idxFrom n l), q.1 < n + l.length)
      ∧ List.Chain' (· < ·) ((List.foldl annStep acc (idxFrom n l)).map Prod.fst) := by
  induction l generalizing acc n with
  | nil =>
    refine ⟨fun q hq => ?_, ?_⟩
    · simp only [idxFrom, List.foldl_nil] at hq
      simpa using hbound q hq
    · simpa [idxFrom] using hchain
  | cons v t ih =>
    simp only [idxFrom, List.foldl_cons]
    have hstep : (∀ q ∈ annStep acc (n, v), q.1 < n + 1)
        ∧ List.Chain' (· < ·) ((annStep acc (n, v)).map Prod.fst) := by
      cases h1 : v.lat with
      | none =>
        have heq : annStep acc (n, v) = acc ++ [(n, v)] := by simp [annStep, h1]
        rw [heq]
        exact ann_append_invariant acc n v hbound hchain
      | some vlat =>
        cases h2 : v.lon with
        | none =>
          have heq : annStep acc (n, v) = acc ++ [(n, v)] := by simp [annStep, h1, h2]
          rw [heq]
          exact ann_append_invariant acc n v hbound hchain
        | some vlon =>
          cases hf : findIdxA (fun q => isSame v q.2) acc with
          | none =>
            have heq : annStep acc (n, v) = acc ++ [(n, v)] := by
              simp [annStep, h1, h2, hf]
            rw [heq]
            exact ann_append_invariant acc n v hbound hchain
          | some i =>
            have hi : i < acc.length := (findIdxA_some hf (0, default)).1
            have heq : annStep acc (n, v)
                = acc.set i ((acc.getD i (0, default)).1, merge (acc.getD i (0, default)).2 v) := by
              simp [annStep, h1, h2, hf]
            rw [heq]
            constructor
            · intro q hq
              rcases List.mem_or_eq_of_mem_set hq with hq | rfl
              · exact (hbound q hq).trans (Nat.lt_succ_self n)
              · have hmem : acc.getD i (0, default) ∈ acc := getD_mem hi _
                exact (hbound _ hmem).trans (Nat.lt_succ_self n)
            · have hmapset : (acc.set i ((acc.getD i (0, default)).1,
                  merge (acc.getD i (0, default)).2 v)).map Prod.fst = acc.map Prod.fst := by
                rw [List.map_set]
                have hfst : ((acc.getD i (0, default)).1, merge (acc.getD i (0, default)).2 v).1
                    = (acc.map Prod.fst).getD i ((0 : ℕ), (default : Venue)).1 := by
                  rw [List.getD_map]
                rw [hfst, set_getD_self]
              rw [hmapset]
              exact hchain
    have hrec := ih (annStep acc (n, v)) (n + 1) hstep.1 hstep.2
    refine ⟨fun q hq => ?_, hrec.2⟩
    have := hrec.1 q hq
    simp only [List.length_cons]
    omega

theorem annFold_snd (l : List Venue) (acc : List (ℕ × Venue)) (n : ℕ) :
    List.foldl dedupeStep (acc.map Prod.snd) l
      = (List.foldl annStep acc (idxFrom n l)).map Prod.snd := by
  induction l generalizing acc n with
  | nil => rfl
  | cons v t ih =>
    simp only [idxFrom, List.foldl_cons]
    rw [annStep_snd acc n v, ih]

/-- C6: first-appearance order.  The output of `dedupe` is the
snd-projection of the instrumented fold whose fst-components record,
for each output cluster, the input position of its first-seen
contributing record (an append stamps the current position; an in-place
merge keeps the slot's original position); those positions are strictly
increasing along the output and bounded by the input length, so output
order is exactly first-appearance order of the clusters. -/
theorem order_preservation_spec (xs : List Venue) :
    dedupe xs = (dedupeAnn xs).map Prod.snd
      ∧ List.Chain' (· < ·) ((dedupeAnn xs).map Prod.fst)
      ∧ ∀ q ∈ dedupeAnn xs, q.1 < xs.length := by
  refine ⟨?_, ?_, ?_⟩
  · have := annFold_snd xs [] 0
    simpa [dedupe, dedupeAnn] using this
  · exact (annFold_invariant xs [] 0 (by simp) (by simp)).2
  · intro q hq
    have := (annFold_invariant xs [] 0 (by simp) (by simp)).1 q hq
    simpa using this

/-- Closed witness for `order_preservation_spec` on a two-record input. -/
theorem order_preservation_spec_witness :
    let u : Venue := ⟨some "manual".toList, none, some "Roxy Lanes".toList, none, none, none,
      none, none, none, none, none, none, none⟩
    let w : Venue := ⟨some "google".toList, none, some "Gravity".toList, none, none, none,
      none, some (JNum.fin 0), none, none, none, none, none⟩
    dedupe [u, w] = (dedupeAnn [u, w]).map Prod.snd
      ∧ List.Chain' (· < ·) ((dedupeAnn [u, w]).map Prod.fst)
      ∧ ∀ q ∈ dedupeAnn [u, w], q.1 < ([u, w] : List Venue).length := by
  intro u w
  exact order_preservation_spec [u, w]

/-! ### Idempotence analysis -/

theorem dedupe_foldl_no_match (l : List Venue) (acc : List Venue)
    (hp : List.Pairwise (fun a b => isSame b a = false) l)
    (hacc : ∀ v ∈ l, ∀ o ∈ acc, isSame v o = false) :
    List.foldl dedupeStep acc l = acc ++ l := by
  induction l generalizing acc with
  | nil => simp
  | cons v t ih =>
    have hnone : findIdxA (fun o => isSame v o) acc = none :=
      findIdxA_eq_none_iff.2 (fun o ho => hacc v (List.mem_cons_self v t) o ho)
    have hstep : dedupeStep acc v = acc ++ [v] := by
      cases hg : grpB v with
      | true => exact dedupeStep_grp_none hg hnone
      | false => exact dedupeStep_ungrp acc hg
    have hrec := ih (acc ++ [v]) (List.Pairwise.of_cons hp) (by
      intro w hw o ho
      rcases List.mem_append.1 ho with ho | ho
      · exact hacc w (List.mem_cons_of_mem v hw) o ho
      · rcases List.mem_singleton.1 ho with rfl
        exact (List.pairwise_cons.1 hp).1 w hw)
    rw [List.foldl_cons, hstep, hrec]
    simp

/-- C1 (amended): a list in which no entry matches any earlier entry is
a fixed point of `dedupe`; in particular re-running `dedupe` changes
nothing whenever its output contains no two entries the matcher judges
the same.  (Unconditional idempotence fails: see
`dedupe_not_idempotent`, where a merge relocates a cluster onto the
preferred record's coordinates, after which the merged entry matches
another already-emitted entry.) -/
theorem dedupe_fixed_point_of_pairwise_unmatched (ys : List Venue)
    (h : List.Pairwise (fun a b => isSame b a = false) ys) :
    dedupe ys = ys := by
  have := dedupe_foldl_no_match ys [] h (by intro v _ o ho; simp at ho)
  simpa [dedupe] using this

/-- Closed witness for `dedupe_fixed_point_of_pairwise_unmatched`. -/
theorem dedupe_fixed_point_of_pairwise_unmatched_witness :
    let u : Venue := ⟨some "manual".toList, none, some "Roxy Lanes".toList, none, none, none,
      none, none, none, none, none, none, none⟩
    let w : Venue := ⟨some "google".toList, none, some "Roxy Lanes".toList, none, none, none,
      none, some (JNum.fin 0), none, none, none, none, none⟩
    dedupe [u, w] = [u, w] := by
  intro u w
  exact dedupe_fixed_point_of_pairwise_unmatched [u, w]
    (List.pairwise_cons.2 ⟨fun b hb => by rcases List.mem_singleton.1 hb with rfl; rfl,
      List.pairwise_singleton _ _⟩)

/-- Record `A`: OSM-sourced, at the origin. -/
noncomputable def vA : Venue :=
  ⟨some "osm".toList, none, some "Alpha".toList, none, none, none,
    some (JNum.fin 0), some (JNum.fin 0), none, none, none, none, none⟩

/-- Record `C`: OSM-sourced, `0.001°` of longitude (≈111 m) east of `A`,
with a name unrelated to `A`'s. -/
noncomputable def vC : Venue :=
  ⟨some "osm".toList, none, some "Zulu".toList, none, none, none,
    some (JNum.fin 0), some (JNum.fin (1 / 1000)), none, none, none, none, none⟩

/-- Record `B`: Google-sourced, `0.0005°` of longitude (≈56 m) east of
`A`, so within the tight radius of `A` and of `C`'s side. -/
noncomputable def vB : Venue :=
  ⟨some "google".toList, none, some "Beta".toList, none, none, none,
    some (JNum.fin 0), some (JNum.fin (1 / 2000)), none, none, none, none, none⟩

/-- The merge of `A` and `B`: `B` wins (higher source weight), so the
cluster's coordinates move onto `B`'s. -/
noncomputable def vM : Venue :=
  ⟨some "google".toList, none, some "Beta".toList, none, none, none,
    some (JNum.fin 0), some (JNum.fin (1 / 2000)), none, none, none, none, none⟩

theorem merge_A_B : merge vA vB = vM := rfl

theorem dist_CA :
    haversineMeters (JNum.fin 0) (JNum.fin (1 / 1000)) (JNum.fin 0) (JNum.fin 0)
      = JNum.fin (6371000 * ((1 / 1000) * Real.pi / 180)) := by
  have h := haversine_equator (1 / 1000) 0 (by
    rw [show (0 : ℝ) - 1 / 1000 = -(1 / 1000) by ring, abs_neg, abs_of_nonneg (by norm_num)]
    norm_num)
  rw [h, show |(0 : ℝ) - 1 / 1000| = 1 / 1000 by
    rw [show (0 : ℝ) - 1 / 1000 = -(1 / 1000) by ring, abs_neg, abs_of_nonneg (by norm_num)]]

theorem dist_BA :
    haversineMeters (JNum.fin 0) (JNum.fin (1 / 2000)) (JNum.fin 0) (JNum.fin 0)
      = JNum.fin (6371000 * ((1 / 2000) * Real.pi / 180)) := by
  have h := haversine_equator (1 / 2000) 0 (by
    rw [show (0 : ℝ) - 1 / 2000 = -(1 / 2000) by ring, abs_neg, abs_of_nonneg (by norm_num)]
    norm_num)
  rw [h, show |(0 : ℝ) - 1 / 2000| = 1 / 2000 by
    rw [show (0 : ℝ) - 1 / 2000 = -(1 / 2000) by ring, abs_neg, abs_of_nonneg (by norm_num)]]

theorem dist_CM :
    haversineMeters (JNum.fin 0) (JNum.fin (1 / 1000)) (JNum.fin 0) (JNum.fin (1 / 2000))
      = JNum.fin (6371000 * ((1 / 2000) * Real.pi / 180)) := by
  have h := haversine_equator (1 / 1000) (1 / 2000) (by
    rw [show (1 : ℝ) / 2000 - 1 / 1000 = -(1 / 2000) by ring, abs_neg,
      abs_of_nonneg (by norm_num)]
    norm_num)
  rw [h, show |(1 : ℝ) / 2000 - 1 / 1000| = 1 / 2000 by
    rw [show (1 : ℝ) / 2000 - 1 / 1000 = -(1 / 2000) by ring, abs_neg,
      abs_of_nonneg (by norm_num)]]

theorem far_gt_60 : (60 : ℝ) < 6371000 * ((1 / 1000) * Real.pi / 180) := by
  nlinarith [Real.pi_gt_d6]

theorem near_le_60 : 6371000 * ((1 / 2000) * Real.pi / 180) ≤ 60 := by
  nlinarith [Real.pi_lt_d2]

/-- Bool-level evaluation form of the matcher for concrete records. -/
theorem isSame_eval (v o : Venue) (vlat vlon olat olon : JNum)
    (hv1 : v.lat = some vlat) (hv2 : v.lon = some vlon)
    (ho1 : o.lat = some olat) (ho2 : o.lon = some olon) :
    isSame v o = (jle (haversineMeters vlat vlon olat olon) 60
      || (jle (haversineMeters vlat vlon olat olon) 200 && nameSimilar v.name o.name)) := by
  simp only [isSame, hv1, hv2, ho1, ho2]
  cases jle (haversineMeters vlat vlon olat olon) 60 <;>
    cases jle (haversineMeters vlat vlon olat olon) 200 && nameSimilar v.name o.name <;> simp

theorem isSame_C_A : isSame vC vA = false := by
  rw [isSame_eval vC vA _ _ _ _ rfl rfl rfl rfl, dist_CA, jle_fin_of_lt far_gt_60]
  have hns : nameSimilar vC.name vA.name = false := by decide
  rw [hns]
  simp

theorem isSame_B_A : isSame vB vA = true := by
  rw [isSame_eval vB vA _ _ _ _ rfl rfl rfl rfl, dist_BA, jle_fin_of_le near_le_60]
  simp

theorem isSame_C_M : isSame vC vM = true := by
  rw [isSame_eval vC vM _ _ _ _ rfl rfl rfl rfl, dist_CM, jle_fin_of_le near_le_60]
  simp

theorem dedupe_first_pass : dedupe [vA, vC, vB] = [vM, vC] := by
  have s1 : dedupeStep [] vA = [vA] := rfl
  have hfC : findIdxA (fun o => isSame vC o) [vA] = none := by
    simp [findIdxA, isSame_C_A]
  have s2 : dedupeStep [vA] vC = [vA, vC] := dedupeStep_grp_none rfl hfC
  have hfB : findIdxA (fun o => isSame vB o) [vA, vC] = some 0 := by
    simp [findIdxA, isSame_B_A]
  have s3 : dedupeStep [vA, vC] vB = [vM, vC] := by
    rw [dedupeStep_grp_some (show grpB vB = true from rfl) hfB]
    show [vA, vC].set 0 (merge ([vA, vC].getD 0 default) vB) = [vM, vC]
    rw [show ([vA, vC].getD 0 default) = vA from rfl, merge_A_B]
    rfl
  show dedupeStep (dedupeStep (dedupeStep [] vA) vC) vB = [vM, vC]
  rw [s1, s2, s3]

theorem dedupe_second_pass : dedupe [vM, vC] = [merge vM vC] := by
  have s1 : dedupeStep [] vM = [vM] := rfl
  have hf : findIdxA (fun o => isSame vC o) [vM] = some 0 := by
    simp [findIdxA, isSame_C_M]
  have s2 : dedupeStep [vM] vC = [merge vM vC] := by
    rw [dedupeStep_grp_some (show grpB vC = true from rfl) hf]
    rfl
  show dedupeStep (dedupeStep [] vM) vC = [merge vM vC]
  rw [s1, s2]

/-- C1 counterexample: `dedupe` is not idempotent.  On
`[vA, vC, vB]` the first pass merges `B` into `A`'s slot, and the
Google-sourced `B` wins the merge, so the cluster's coordinates move to
`B`'s position — within 60 m of `C`, which had already been emitted as
its own entry (it was ≈111 m from `A` with a dissimilar name).  The
second pass therefore merges the two remaining entries. -/
theorem dedupe_not_idempotent : dedupe (dedupe [vA, vC, vB]) ≠ dedupe [vA, vC, vB] := by
  rw [dedupe_first_pass, dedupe_second_pass]
  intro h
  have := congrArg List.length h
  simp at this

/-! ### Choice of the primary record, and the merge -/

/-- C3 counterexample: an unrecognized source tag does *not* rank zero.
`sourceWeight` gives every non-empty tag without a recognized keyword
(including manual entries) rank 1; only a missing/empty tag ranks 0.
Consequence at a concrete input: a record with the unrecognized tag
`manual` beats a source-less record on trust alone, even though the
latter is far richer — under the claimed rank-zero-for-unrecognized
table the two would tie on trust and the richer record would win. -/
theorem sourceWeight_unrecognized_counterexample :
    sourceWeight (some "manual".toList) = 1 ∧ sourceWeight none = 0 ∧
      (let a : Venue := ⟨some "manual".toList, none, some "X".toList, none, none, none,
        none, none, none, none, none, none, none⟩
      let b : Venue := ⟨none, none, some "Y".toList, none, some "u".toList, some "p".toList,
        none, none, some "t".toList, some "4".toList, some "2".toList, none, none⟩
      richnessScore a = 1 ∧ richnessScore b = 5 ∧ choosePreferred a b = a) :=
  ⟨by decide, rfl, by decide, by decide, rfl⟩

theorem sourceWeight_pos_of_nonempty (s : List Char) (hs : s ≠ []) :
    1 ≤ sourceWeight (some s) := by
  simp only [sourceWeight, hs, if_false]
  split
  · norm_num
  · split <;> norm_num

/-- C3 (amended): `merge` picks its primary record by source-trust rank
(higher wins), then by richness score (higher wins), and keeps the
first-seen record on an exact tie — where tags containing
`google`/`places`/`gmaps` rank 3, tags containing
`osm`/`openstreetmap` rank 2, every other non-empty tag (manual entries
included) ranks 1, and a missing/empty tag ranks 0. -/
theorem choose_preferred_spec (a b : Venue) :
    (sourceWeight a.source ≠ sourceWeight b.source →
      choosePreferred a b
        = (if sourceWeight b.source > sourceWeight a.source then b else a))
    ∧ (sourceWeight a.source = sourceWeight b.source →
      choosePreferred a b = (if richnessScore b > richnessScore a then b else a))
    ∧ sourceWeight none = 0
    ∧ (∀ s : List Char, s ≠ [] → 1 ≤ sourceWeight (some s)) := by
  refine ⟨?_, ?_, rfl, sourceWeight_pos_of_nonempty⟩
  · intro h
    by_cases hgt : sourceWeight b.source > sourceWeight a.source <;>
      simp [choosePreferred, preferB, h, hgt]
  · intro h
    by_cases hgt : richnessScore b > richnessScore a <;>
      simp [choosePreferred, preferB, h, hgt]

/-- Closed witness for `choose_preferred_spec`: trust decides between
Google and OSM; an unrecognized tag has positive rank. -/
theorem choose_preferred_spec_witness :
    let a : Venue := ⟨some "osm".toList, none, some "X".toList, none, none, none,
      none, none, none, none, none, none, none⟩
    let b : Venue := ⟨some "google".toList, none, some "Y".toList, none, none, none,
      none, none, none, none, none, none, none⟩
    choosePreferred a b
        = (if sourceWeight b.source > sourceWeight a.source then b else a)
      ∧ 1 ≤ sourceWeight (some "manual".toList) := by
  intro a b
  exact ⟨(choose_preferred_spec a b).1 (by decide),
    (choose_preferred_spec a b).2.2.2 _ (by decide)⟩

theorem orS_truthy {x y : Option (List Char)} (h : (truthy x || truthy y) = true) :
    truthy (orS x y) = true := by
  by_cases hx : truthy x = true
  · simp [orS, hx]
  · rcases Bool.or_eq_true_iff.1 h with h | h
    · exact absurd h hx
    · simp only [orS]
      rw [if_neg (by simp [Bool.not_eq_true] at hx; simp [hx])]
      exact h

theorem coal_isSome {x y : Option JNum} (h : (x.isSome || y.isSome) = true) :
    (coal x y).isSome = true := by
  cases x with
  | some v => rfl
  | none => simpa [coal] using h

/-- Non-loss of one `||`-merged descriptive field, for any projection
that `merge` resolves with `orS`. -/
theorem merge_field_or (a b : Venue) (f : Venue → Option (List Char))
    (hf : f (merge a b) = orS (f (choosePreferred a b)) (f (secondary a b)))
    (h : (truthy (f a) || truthy (f b)) = true) : truthy (f (merge a b)) = true := by
  rw [hf]
  cases hp : preferB a b <;>
    simp only [choosePreferred, secondary, hp, if_true, if_false] <;>
    exact orS_truthy (by rw [Bool.or_comm] at h ⊢; first | exact h | (rw [Bool.or_comm]; exact h))

/-- C4: `merge` builds its result field-by-field, preferring the
primary's value and falling back to the secondary's, so every
descriptive field that is non-empty in either input is non-empty in the
result (and a coordinate present in either input is present in the
result); `lat`/`lon` are resolved by null-coalescing, so the primary's
coordinate — any numeric value, `0` included — is kept and only a
null/absent primary coordinate falls through to the secondary's. -/
theorem merge_nonloss_spec (a b : Venue) :
    ((truthy a.source || truthy b.source) = true → truthy (merge a b).source = true)
    ∧ ((truthy a.category || truthy b.category) = true → truthy (merge a b).category = true)
    ∧ ((truthy a.name || truthy b.name) = true → truthy (merge a b).name = true)
    ∧ ((truthy a.brand || truthy b.brand) = true → truthy (merge a b).brand = true)
    ∧ ((truthy a.url || truthy b.url) = true → truthy (merge a b).url = true)
    ∧ ((truthy a.postcode || truthy b.postcode) = true → truthy (merge a b).postcode = true)
    ∧ ((truthy a.phone || truthy b.phone) = true → truthy (merge a b).phone = true)
    ∧ ((truthy a.rating || truthy b.rating) = true → truthy (merge a b).rating = true)
    ∧ ((truthy a.price_level || truthy b.price_level) = true →
        truthy (merge a b).price_level = true)
    ∧ ((truthy a.business_status || truthy b.business_status) = true →
        truthy (merge a b).business_status = true)
    ∧ ((truthy a.opening_hours || truthy b.opening_hours) = true →
        truthy (merge a b).opening_hours = true)
    ∧ ((a.lat.isSome || b.lat.isSome) = true → (merge a b).lat.isSome = true)
    ∧ ((a.lon.isSome || b.lon.isSome) = true → (merge a b).lon.isSome = true)
    ∧ (merge a b).lat = coal (choosePreferred a b).lat ((secondary a b).lat)
    ∧ (merge a b).lon = coal (choosePreferred a b).lon ((secondary a b).lon)
    ∧ (∀ x : JNum, (choosePreferred a b).lat = some x → (merge a b).lat = some x) := by
  refine ⟨merge_field_or a b (fun v => v.source) rfl,
    merge_field_or a b (fun v => v.category) rfl,
    merge_field_or a b (fun v => v.name) rfl,
    merge_field_or a b (fun v => v.brand) rfl,
    merge_field_or a b (fun v => v.url) rfl,
    merge_field_or a b (fun v => v.postcode) rfl,
    merge_field_or a b (fun v => v.phone) rfl,
    merge_field_or a b (fun v => v.rating) rfl,
    merge_field_or a b (fun v => v.price_level) rfl,
    merge_field_or a b (fun v => v.business_status) rfl,
    merge_field_or a b (fun v => v.opening_hours) rfl,
    ?_, ?_, rfl, rfl, ?_⟩
  · intro h
    have hlat : (merge a b).lat = coal (choosePreferred a b).lat ((secondary a b).lat) := rfl
    rw [hlat]
    apply coal_isSome
    cases hp : preferB a b <;>
      simp only [choosePreferred, secondary, hp, if_true, if_false] <;>
      first | exact h | (rw [Bool.or_comm]; exact h)
  · intro h
    have hlon : (merge a b).lon = coal (choosePreferred a b).lon ((secondary a b).lon) := rfl
    rw [hlon]
    apply coal_isSome
    cases hp : preferB a b <;>
      simp only [choosePreferred, secondary, hp, if_true, if_false] <;>
      first | exact h | (rw [Bool.or_comm]; exact h)
  · intro x hx
    have hlat : (merge a b).lat = coal (choosePreferred a b).lat ((secondary a b).lat) := rfl
    rw [hlat, hx]
    rfl

/-- Closed witness for `merge_nonloss_spec`: the phone survives from
the poorer side, and the primary's zero latitude is kept (not treated
as absent). -/
theorem merge_nonloss_spec_witness :
    let a : Venue := ⟨some "google".toList, none, some "X".toList, none, none, none,
      some (JNum.fin 0), some (JNum.fin 0), none, none, none, none, none⟩
    let b : Venue := ⟨some "osm".toList, none, some "Y".toList, none, none, none,
      some (JNum.fin 7), some (JNum.fin 8), some "020".toList, none, none, none, none⟩
    truthy (merge a b).phone = true ∧ (merge a b).lat = some (JNum.fin 0) := by
  intro a b
  exact ⟨(merge_nonloss_spec a b).2.2.2.2.2.2.1 (by decide),
    (merge_nonloss_spec a b).2.2.2.2.2.2.2.2.2.2.2.2.2.2.2 (JNum.fin 0) rfl⟩

/-! ### No coordinate validation -/

/-- C7 counterexample: records whose coordinates are numeric but far
outside the valid latitude range (`lat = 100`) are not rejected and no
error is surfaced: `dedupe` runs the matcher on them like on any
numeric coordinates and happily merges two such records, keeping the
invalid latitude in its output. -/
theorem invalid_coords_processed_counterexample :
    let r1 : Venue := ⟨some "osm".toList, none, some "P".toList, none, none, none,
      some (JNum.fin 100), some (JNum.fin 0), none, none, none, none, none⟩
    let r2 : Venue := ⟨some "osm".toList, none, some "Q".toList, none, none, none,
      some (JNum.fin 100), some (JNum.fin 0), none, none, none, none, none⟩
    dedupe [r1, r2] = [merge r1 r2] ∧ (merge r1 r2).lat = some (JNum.fin 100) := by
  intro r1 r2
  have hsame : isSame r2 r1 = true := by
    rw [isSame_eval r2 r1 _ _ _ _ rfl rfl rfl rfl, haversine_self,
      jle_fin_of_le (by norm_num : (0 : ℝ) ≤ 60)]
    simp
  have hf : findIdxA (fun o => isSame r2 o) [r1] = some 0 := by simp [findIdxA, hsame]
  have s2 : dedupeStep [r1] r2 = [merge r1 r2] := by
    rw [dedupeStep_grp_some (show grpB r2 = true from rfl) hf]
    rfl
  refine ⟨?_, rfl⟩
  show dedupeStep (dedupeStep [] r1) r2 = [merge r1 r2]
  rw [show dedupeStep [] r1 = [r1] from rfl, s2]

/-- C7 (amended): the script performs no coordinate validation at all.
The ungroupable path is taken exactly when `lat` or `lon` is not a
number; *any* numeric coordinates — out of range or not — take the
matching path, and in either case `dedupe` produces an ordinary output
rather than surfacing an error. -/
theorem dedupe_no_validation_spec (out : List Venue) (v : Venue) :
    (v.lat = none ∨ v.lon = none → dedupeStep out v = out ++ [v])
    ∧ (∀ x y : JNum, v.lat = some x → v.lon = some y →
        (findIdxA (fun o => isSame v o) out = none → dedupeStep out v = out ++ [v])
        ∧ (∀ i, findIdxA (fun o => isSame v o) out = some i →
            dedupeStep out v = out.set i (merge (out.getD i default) v))) := by
  constructor
  · intro h
    apply dedupeStep_ungrp
    rcases h with h | h
    · simp [grpB, h]
    · cases hl : v.lat <;> simp [grpB, hl, h]
  · intro x y hx hy
    have hg : grpB v = true := by simp [grpB, hx, hy]
    exact ⟨fun hf => dedupeStep_grp_none hg hf, fun i hf => dedupeStep_grp_some hg hf⟩

/-- Closed witness for `dedupe_no_validation_spec` at an out-of-range
latitude and at a missing longitude. -/
theorem dedupe_no_validation_spec_witness :
    let v : Venue := ⟨some "osm".toList, none, some "P".toList, none, none, none,
      some (JNum.fin 100), some (JNum.fin 0), none, none, none, none, none⟩
    let u : Venue := ⟨some "osm".toList, none, some "Q".toList, none, none, none,
      some (JNum.fin 0), none, none, none, none, none, none⟩
    dedupeStep [] v = [v] ∧ dedupeStep [] u = [u] := by
  intro v u
  exact ⟨((dedupe_no_validation_spec [] v).2 (JNum.fin 100) (JNum.fin 0) rfl rfl).1 rfl,
    (dedupe_no_validation_spec [] u).1 (Or.inr rfl)⟩

/-! ### The normalizer as a token pipeline

`normalizeName` is a chain of string rewrites; the specification
describes it as: split into maximal alphanumeric runs, drop stopword
tokens, join the remaining tokens with single spaces.  We prove the two
agree on every input. -/

/-- Maximal alphanumeric runs of a string (`cur` accumulates the
current run). -/
def tokAux (cur : List Char) : List Char → List (List Char)
  | [] => if cur = [] then [] else [cur]
  | c :: t =>
    if isAlnum c then tokAux (cur ++ [c]) t
    else if cur = [] then tokAux [] t else cur :: tokAux [] t

/-- The maximal alphanumeric runs of a string. -/
def tokenize (s : List Char) : List (List Char) := tokAux [] s

/-- Join tokens with single separating spaces. -/
def joinSp : List (List Char) → List Char
  | [] => []
  | [t] => t
  | t :: t2 :: ts => t ++ ' ' :: joinSp (t2 :: ts)

/-- Modelled from the spec's description of the Normalizer (§4.1):
lower-case and expand `&`, break the string into maximal alphanumeric
runs, drop the stopword tokens, join the survivors with single spaces
(missing input yields the empty string). -/
def specNormalizeName (name : Option (List Char)) : List Char :=
  match name with
  | none => []
  | some s =>
    joinSp (((tokenize (expandAmp (lowerStr s))).filter (fun t => !isStop t)))

/-- Strings over the alphabet the stopword pass works on:
alphanumerics and spaces. -/
def alnumSp (s : List Char) : Prop := ∀ c ∈ s, isAlnum c = true ∨ c = ' '

/-- Tokens are alphanumeric-only strings. -/
def allAlnum (s : List Char) : Prop := ∀ c ∈ s, isAlnum c = true

theorem isAlnum_space : isAlnum ' ' = false := by decide

theorem ne_space_of_isAlnum {c : Char} (h : isAlnum c = true) : c ≠ ' ' := by
  intro hc
  rw [hc, isAlnum_space] at h
  exact Bool.false_ne_true h

/-- Consuming an alphanumeric run extends the accumulator. -/
theorem tokAux_append_run (cur : List Char) (h : allAlnum cur) :
    ∀ (acc rest : List Char), tokAux acc (cur ++ rest) = tokAux (acc ++ cur) rest := by
  induction cur with
  | nil => intro acc rest; simp
  | cons c cs ih =>
    intro acc rest
    have hc : isAlnum c = true := h c (List.mem_cons_self c cs)
    have hcs : allAlnum cs := fun d hd => h d (List.mem_cons_of_mem c hd)
    show tokAux acc (c :: (cs ++ rest)) = tokAux (acc ++ c :: cs) rest
    rw [show tokAux acc (c :: (cs ++ rest)) = tokAux (acc ++ [c]) (cs ++ rest) by
      simp [tokAux, hc]]
    rw [ih hcs]
    simp

/-- A nonempty alphanumeric-only string is a single token. -/
theorem tokenize_allAlnum {cur : List Char} (h : allAlnum cur) (hne : cur ≠ []) :
    tokenize cur = [cur] := by
  have := tokAux_append_run cur h [] []
  simp only [List.append_nil, List.nil_append] at this
  rw [tokenize, this, tokAux, if_neg hne]

/-- Collapsing non-alphanumeric runs to single spaces does not change
the maximal alphanumeric runs. -/
theorem tokAux_squashNA : ∀ u : List Char,
    (∀ cur, tokAux cur (squashNA false u) = tokAux cur u)
      ∧ tokAux [] (squashNA true u) = tokAux [] u := by
  intro u
  induction u with
  | nil => exact ⟨fun cur => rfl, rfl⟩
  | cons c t ih =>
    constructor
    · intro cur
      by_cases hc : isAlnum c
      · rw [show squashNA false (c :: t) = c :: squashNA false t by simp [squashNA, hc]]
        rw [show tokAux cur (c :: squashNA false t) = tokAux (cur ++ [c]) (squashNA false t) by
          simp [tokAux, hc]]
        rw [ih.1]
        simp [tokAux, hc]
      · rw [show squashNA false (c :: t) = ' ' :: squashNA true t by simp [squashNA, hc]]
        by_cases hcur : cur = []
        · subst hcur
          rw [show tokAux [] (' ' :: squashNA true t) = tokAux [] (squashNA true t) by
            simp [tokAux, isAlnum_space]]
          rw [ih.2]
          simp [tokAux, hc]
        · rw [show tokAux cur (' ' :: squashNA true t) = cur :: tokAux [] (squashNA true t) by
            simp [tokAux, isAlnum_space, hcur]]
          rw [ih.2]
          simp [tokAux, hc, hcur]
    · by_cases hc : isAlnum c
      · rw [show squashNA true (c :: t) = c :: squashNA false t by simp [squashNA, hc]]
        rw [show tokAux [] (c :: squashNA false t) = tokAux ([] ++ [c]) (squashNA false t) by
          simp [tokAux, hc]]
        rw [ih.1]
        simp [tokAux, hc]
      · rw [show squashNA true (c :: t) = squashNA true t by simp [squashNA, hc]]
        rw [ih.2]
        simp [tokAux, hc]

/-- The collapse step emits only alphanumerics and spaces. -/
theorem alnumSp_squashNA (u : List Char) : ∀ b, alnumSp (squashNA b u) := by
  induction u with
  | nil => intro b c hc; simp [squashNA] at hc
  | cons c t ih =>
    intro b d hd
    by_cases hc : isAlnum c
    · rw [show squashNA b (c :: t) = c :: squashNA false t by cases b <;> simp [squashNA, hc]] at hd
      rcases List.mem_cons.1 hd with rfl | hd
      · exact Or.inl hc
      · exact ih false d hd
    · cases b with
      | true =>
        rw [show squashNA true (c :: t) = squashNA true t by simp [squashNA, hc]] at hd
        exact ih true d hd
      | false =>
        rw [show squashNA false (c :: t) = ' ' :: squashNA true t by simp [squashNA, hc]] at hd
        rcases List.mem_cons.1 hd with rfl | hd
        · exact Or.inr rfl
        · exact ih true d hd

/-- The stopword pass emits only alphanumerics and spaces. -/
theorem alnumSp_rmStops : ∀ w : List Char, alnumSp w →
    ∀ cur, allAlnum cur → alnumSp (rmStops cur w) := by
  intro w
  induction w with
  | nil =>
    intro _ cur hcur d hd
    simp only [rmStops] at hd
    split at hd
    · simp at hd
    · exact Or.inl (hcur d hd)
  | cons c t ih =>
    intro hw cur hcur d hd
    by_cases hsp : c = ' '
    · subst hsp
      rw [show rmStops cur (' ' :: t)
          = (if isStop cur then [] else cur) ++ ' ' :: rmStops [] t by simp [rmStops]] at hd
      rcases List.mem_append.1 hd with hd | hd
      · split at hd
        · simp at hd
        · exact Or.inl (hcur d hd)
      · rcases List.mem_cons.1 hd with rfl | hd
        · exact Or.inr rfl
        · exact ih (fun e he => hw e (List.mem_cons_of_mem _ he)) [] (by intro e he; simp at he) d hd
    · rw [show rmStops cur (c :: t) = rmStops (cur ++ [c]) t by simp [rmStops, hsp]] at hd
      have hc : isAlnum c = true := (hw c (List.mem_cons_self c t)).resolve_right hsp
      refine ih (fun e he => hw e (List.mem_cons_of_mem _ he)) (cur ++ [c]) ?_ d hd
      intro e he
      rcases List.mem_append.1 he with he | he
      · exact hcur e he
      · rcases List.mem_singleton.1 he with rfl
        exact hc

/-- The stopword pass deletes exactly the stopword tokens: tokenizing
its output is tokenizing its input and filtering. -/
theorem tokenize_rmStops : ∀ w : List Char, alnumSp w →
    ∀ cur, allAlnum cur →
      tokenize (rmStops cur w) = (tokAux cur w).filter (fun t => !isStop t) := by
  intro w
  induction w with
  | nil =>
    intro _ cur hcur
    show tokenize (if isStop cur then [] else cur)
      = (if cur = [] then [] else [cur]).filter (fun t => !isStop t)
    by_cases hne : cur = []
    · subst hne
      simp [tokenize, tokAux]
    · by_cases hstop : isStop cur
      · simp [hstop, hne, tokenize, tokAux]
      · simp [hstop, hne, tokenize_allAlnum hcur hne]
  | cons c t ih =>
    intro hw cur hcur
    have hwt : alnumSp t := fun e he => hw e (List.mem_cons_of_mem _ he)
    by_cases hsp : c = ' '
    · subst hsp
      rw [show rmStops cur (' ' :: t)
          = (if isStop cur then [] else cur) ++ ' ' :: rmStops [] t by simp [rmStops]]
      rw [show tokAux cur (' ' :: t)
          = (if cur = [] then tokAux [] t else cur :: tokAux [] t) by
        by_cases hne : cur = [] <;> simp [tokAux, isAlnum_space, hne]]
      have hrec := ih hwt [] (by intro e he; simp at he)
      by_cases hne : cur = []
      · subst hne
        rw [if_pos rfl, if_neg (by decide : ¬ isStop ([] : List Char) = true)]
        show tokenize (' ' :: rmStops [] t) = (tokAux [] t).filter (fun t => !isStop t)
        rw [show tokenize (' ' :: rmStops [] t) = tokenize (rmStops [] t) by
          simp [tokenize, tokAux, isAlnum_space]]
        exact hrec
      · by_cases hstop : isStop cur
        · rw [if_pos hstop, if_neg hne]
          show tokenize (' ' :: rmStops [] t)
            = (cur :: tokAux [] t).filter (fun t => !isStop t)
          rw [show tokenize (' ' :: rmStops [] t) = tokenize (rmStops [] t) by
            simp [tokenize, tokAux, isAlnum_space]]
          rw [hrec]
          simp [hstop]
        · rw [if_neg hstop, if_neg hne]
          show tokenize (cur ++ ' ' :: rmStops [] t)
            = (cur :: tokAux [] t).filter (fun t => !isStop t)
          rw [show tokenize (cur ++ ' ' :: rmStops [] t)
              = tokAux cur (' ' :: rmStops [] t) by
            simp only [tokenize]
            exact tokAux_append_run cur hcur [] _]
          rw [show tokAux cur (' ' :: rmStops [] t) = cur :: tokAux [] (rmStops [] t) by
            simp [tokAux, isAlnum_space, hne]]
          rw [show tokAux [] (rmStops [] t) = tokenize (rmStops [] t) from rfl, hrec]
          simp [hstop]
    · have hc : isAlnum c = true := (hw c (List.mem_cons_self c t)).resolve_right hsp
      rw [show rmStops cur (c :: t) = rmStops (cur ++ [c]) t by simp [rmStops, hsp]]
      rw [show tokAux cur (c :: t) = tokAux (cur ++ [c]) t by simp [tokAux, hc]]
      refine ih hwt (cur ++ [c]) ?_
      intro e he
      rcases List.mem_append.1 he with he | he
      · exact hcur e he
      · rcases List.mem_singleton.1 he with rfl
        exact hc

/-- Drop trailing spaces. -/
def dropTrail (s : List Char) : List Char :=
  (s.reverse.dropWhile (fun c => c = ' ')).reverse

theorem trimSp_eq (s : List Char) :
    trimSp s = dropTrail (s.dropWhile (fun c => c = ' ')) := rfl

theorem trim_cons_space (x : List Char) : trimSp (' ' :: x) = trimSp x := by
  unfold trimSp
  rw [List.dropWhile_cons_of_pos (by simp)]

theorem dropTrail_no_space {s : List Char} (h : ∀ c ∈ s, c ≠ ' ') :
    dropTrail s = s := by
  cases hrev : s.reverse with
  | nil =>
    have : s = [] := by simpa using congrArg List.reverse hrev
    simp [dropTrail, hrev, this]
  | cons c t =>
    have hc : c ≠ ' ' := h c (by rw [← List.mem_reverse, hrev]; exact List.mem_cons_self c t)
    rw [dropTrail, hrev, List.dropWhile_cons_of_neg (by simp [hc]), ← hrev,
      List.reverse_reverse]

theorem trim_no_space {s : List Char} (h : ∀ c ∈ s, c ≠ ' ') : trimSp s = s := by
  have h1 : s.dropWhile (fun c => c = ' ') = s := by
    cases s with
    | nil => rfl
    | cons c t =>
      exact List.dropWhile_cons_of_neg (by simp [h c (List.mem_cons_self c t)])
  rw [trimSp_eq, h1, dropTrail_no_space h]

theorem dropTrail_append (x y : List Char) :
    dropTrail (x ++ y) = if dropTrail y = [] then dropTrail x else x ++ dropTrail y := by
  unfold dropTrail
  rw [List.reverse_append, List.dropWhile_append]
  by_cases hy : y.reverse.dropWhile (fun c => decide (c = ' ')) = []
  · rw [if_pos (by simp [hy]), if_pos (by simp [hy])]
  · rw [if_neg (by simp [hy]), if_neg (by simp [hy]), List.reverse_append,
      List.reverse_reverse]

theorem dropTrail_cons_space (m : List Char) :
    dropTrail (' ' :: m) = if dropTrail m = [] then [] else ' ' :: dropTrail m := by
  have h := dropTrail_append [' '] m
  simp only [List.singleton_append] at h
  rw [h]
  have h1 : dropTrail [' '] = [] := by
    show ([' '].reverse.dropWhile (fun c => c = ' ')).reverse = []
    simp
  split <;> simp [h1]

theorem trim_squashSp_true (t : List Char) :
    trimSp (squashSp true t) = trimSp (squashSp false t) := by
  cases t with
  | nil => rfl
  | cons c t2 =>
    by_cases hc : c = ' '
    · subst hc
      rw [show squashSp true (' ' :: t2) = squashSp true t2 by simp [squashSp]]
      rw [show squashSp false (' ' :: t2) = ' ' :: squashSp true t2 by simp [squashSp]]
      rw [trim_cons_space]
    · rw [show squashSp true (c :: t2) = c :: squashSp false t2 by simp [squashSp, hc]]
      rw [show squashSp false (c :: t2) = c :: squashSp false t2 by simp [squashSp, hc]]

theorem squashSp_append_token (tok : List Char) (h : ∀ c ∈ tok, c ≠ ' ')
    (rest : List Char) : squashSp false (tok ++ rest) = tok ++ squashSp false rest := by
  induction tok with
  | nil => rfl
  | cons c cs ih =>
    have hc : c ≠ ' ' := h c (List.mem_cons_self c cs)
    show squashSp false (c :: (cs ++ rest)) = c :: (cs ++ squashSp false rest)
    rw [show squashSp false (c :: (cs ++ rest)) = c :: squashSp false (cs ++ rest) by
      simp [squashSp, hc]]
    rw [ih (fun d hd => h d (List.mem_cons_of_mem c hd))]

theorem squashSp_true_head (r : List Char) :
    squashSp true r = [] ∨ ∃ c t', squashSp true r = c :: t' ∧ c ≠ ' ' := by
  induction r with
  | nil => exact Or.inl rfl
  | cons c t ih =>
    by_cases hc : c = ' '
    · subst hc
      rw [show squashSp true (' ' :: t) = squashSp true t by simp [squashSp]]
      exact ih
    · rw [show squashSp true (c :: t) = c :: squashSp false t by simp [squashSp, hc]]
      exact Or.inr ⟨c, squashSp false t, rfl, hc⟩

theorem tokAux_ne_nil : ∀ (s cur : List Char), ∀ t ∈ tokAux cur s, t ≠ [] := by
  intro s
  induction s with
  | nil =>
    intro cur t ht
    simp only [tokAux] at ht
    split at ht
    · simp at ht
    · rcases List.mem_singleton.1 ht with rfl
      assumption
  | cons c s2 ih =>
    intro cur t ht
    by_cases hc : isAlnum c
    · rw [show tokAux cur (c :: s2) = tokAux (cur ++ [c]) s2 by simp [tokAux, hc]] at ht
      exact ih _ t ht
    · by_cases hcur : cur = []
      · subst hcur
        rw [show tokAux [] (c :: s2) = tokAux [] s2 by simp [tokAux, hc]] at ht
        exact ih [] t ht
      · rw [show tokAux cur (c :: s2) = cur :: tokAux [] s2 by simp [tokAux, hc, hcur]] at ht
        rcases List.mem_cons.1 ht with rfl | ht
        · exact hcur
        · exact ih [] t ht

theorem joinSp_cons_ne (t : List Char) {ts : List (List Char)} (h : ts ≠ []) :
    joinSp (t :: ts) = t ++ ' ' :: joinSp ts := by
  cases ts with
  | nil => exact absurd rfl h
  | cons t2 ts2 => rfl

theorem joinSp_eq_nil {ts : List (List Char)} (h : ∀ t ∈ ts, t ≠ [])
    (hj : joinSp ts = []) : ts = [] := by
  cases ts with
  | nil => rfl
  | cons t ts2 =>
    cases ts2 with
    | nil => exact absurd hj (h t (List.mem_cons_self t []))
    | cons t2 ts3 =>
      rw [show joinSp (t :: t2 :: ts3) = t ++ ' ' :: joinSp (t2 :: ts3) from rfl] at hj
      simp at hj

theorem dropWhile_eq_cons_not {α : Type} {p : α → Bool} {l : List α} {x : α}
    {xs : List α} (h : l.dropWhile p = x :: xs) : p x = false := by
  have := List.head?_dropWhile_not p l
  rw [h] at this
  simpa using this

/-- Whitespace collapsing plus trimming realises token joining: on a
string of alphanumerics and spaces, `trim (squashSp ...)` is exactly
the single-space join of the maximal alphanumeric runs. -/
theorem trim_squash_join : ∀ (n : ℕ) (w : List Char), w.length ≤ n → alnumSp w →
    trimSp (squashSp false w) = joinSp (tokenize w) := by
  intro n
  induction n with
  | zero =>
    intro w hlen _
    have hw : w = [] := List.length_eq_zero.1 (Nat.le_zero.1 hlen)
    subst hw
    rfl
  | succ n ih =>
    intro w hlen hw
    cases w with
    | nil => rfl
    | cons c t =>
      have hwt : alnumSp t := fun e he => hw e (List.mem_cons_of_mem _ he)
      by_cases hc : c = ' '
      · subst hc
        rw [show squashSp false (' ' :: t) = ' ' :: squashSp true t by simp [squashSp]]
        rw [trim_cons_space, trim_squashSp_true]
        rw [show tokenize (' ' :: t) = tokenize t by simp [tokenize, tokAux, isAlnum_space]]
        exact ih t (by simpa using Nat.le_of_succ_le_succ hlen) hwt
      · have hcal : isAlnum c = true := (hw c (List.mem_cons_self c t)).resolve_right hc
        have hsplit : t = t.takeWhile isAlnum ++ t.dropWhile isAlnum :=
          (List.takeWhile_append_dropWhile isAlnum t).symm
        cases hr : t.dropWhile isAlnum with
        | nil =>
          have hta : t = t.takeWhile isAlnum := by
            conv_lhs => rw [hsplit, hr]
            simp
          have hnsp : ∀ d ∈ c :: t, d ≠ ' ' := by
            intro d hd
            rcases List.mem_cons.1 hd with rfl | hd
            · exact hc
            · exact ne_space_of_isAlnum (List.mem_takeWhile_imp (hta ▸ hd))
          have hall : allAlnum (c :: t) := by
            intro d hd
            rcases List.mem_cons.1 hd with rfl | hd
            · exact hcal
            · exact List.mem_takeWhile_imp (hta ▸ hd)
          have hsq : squashSp false (c :: t) = c :: t := by
            have := squashSp_append_token (c :: t) hnsp []
            simpa [squashSp] using this
          rw [hsq, trim_no_space hnsp, tokenize_allAlnum hall (by simp)]
          rfl
        | cons c' r =>
          have hc'na : isAlnum c' = false := dropWhile_eq_cons_not hr
          have hc'mem : c' ∈ t := by
            rw [hsplit, hr]
            exact List.mem_append_right _ (List.mem_cons_self c' r)
          have hc'sp : c' = ' ' := by
            rcases hwt c' hc'mem with h | h
            · rw [hc'na] at h
              exact absurd h (Bool.false_ne_true)
            · exact h
          subst hc'sp
          have hweq : c :: t = (c :: t.takeWhile isAlnum) ++ ' ' :: r := by
            have h1 : t = t.takeWhile isAlnum ++ ' ' :: r := by
              nth_rewrite 1 [hsplit]
              rw [hr]
            rw [List.cons_append, ← h1]
          have htokal : allAlnum (c :: t.takeWhile isAlnum) := by
            intro d hd
            rcases List.mem_cons.1 hd with rfl | hd
            · exact hcal
            · exact List.mem_takeWhile_imp hd
          have htoknsp : ∀ d ∈ c :: t.takeWhile isAlnum, d ≠ ' ' :=
            fun d hd => ne_space_of_isAlnum (htokal d hd)
          have hlenr : r.length ≤ n := by
            have h1 : t.length = (t.takeWhile isAlnum).length + (r.length + 1) := by
              conv_lhs => rw [hsplit, hr]
              simp [List.length_append]
            have h2 : t.length + 1 ≤ n + 1 := by simpa using hlen
            omega
          have halr : alnumSp r := by
            intro e he
            apply hwt e
            rw [hsplit, hr]
            exact List.mem_append_right _ (List.mem_cons_of_mem _ he)
          have hIH : trimSp (squashSp false r) = joinSp (tokenize r) := ih r hlenr halr
          have hm : trimSp (squashSp true r) = joinSp (tokenize r) := by
            rw [trim_squashSp_true]
            exact hIH
          have hdt : dropTrail (squashSp true r) = joinSp (tokenize r) := by
            rcases squashSp_true_head r with h0 | ⟨d, t', hdt', hd⟩
            · rw [h0] at hm ⊢
              exact hm
            · have hid : trimSp (squashSp true r) = dropTrail (squashSp true r) := by
                rw [trimSp_eq, show (squashSp true r).dropWhile (fun c => c = ' ')
                    = squashSp true r by
                  rw [hdt']
                  exact List.dropWhile_cons_of_neg (by simp [hd])]
              rw [← hid]
              exact hm
          rw [hweq, squashSp_append_token _ htoknsp (' ' :: r)]
          rw [show squashSp false (' ' :: r) = ' ' :: squashSp true r by simp [squashSp]]
          have hLHS : trimSp ((c :: t.takeWhile isAlnum) ++ ' ' :: squashSp true r)
              = dropTrail ((c :: t.takeWhile isAlnum) ++ ' ' :: squashSp true r) := by
            rw [trimSp_eq, show ((c :: t.takeWhile isAlnum) ++ ' ' :: squashSp true r).dropWhile
                (fun c => c = ' ') = (c :: t.takeWhile isAlnum) ++ ' ' :: squashSp true r by
              show ((c :: (t.takeWhile isAlnum ++ ' ' :: squashSp true r)).dropWhile
                (fun c => c = ' ')) = _
              rw [List.dropWhile_cons_of_neg (by simp [hc])]
              rfl]
          have htokz : tokenize ((c :: t.takeWhile isAlnum) ++ ' ' :: r)
              = (c :: t.takeWhile isAlnum) :: tokenize r := by
            rw [tokenize, tokAux_append_run _ htokal [] (' ' :: r)]
            rw [List.nil_append]
            rw [show tokAux (c :: t.takeWhile isAlnum) (' ' :: r)
                = (c :: t.takeWhile isAlnum) :: tokAux [] r by
              simp [tokAux, isAlnum_space]]
            rfl
          rw [hLHS, dropTrail_append _ (' ' :: squashSp true r), dropTrail_cons_space,
            htokz]
          by_cases h0 : dropTrail (squashSp true r) = []
          · rw [if_pos h0]
            rw [if_pos rfl]
            have hr0 : tokenize r = [] := by
              apply joinSp_eq_nil (tokAux_ne_nil r [])
              show joinSp (tokenize r) = []
              rw [← hdt]
              exact h0
            rw [hr0]
            rw [dropTrail_no_space htoknsp]
            rfl
          · rw [if_neg h0]
            rw [if_neg (by simp)]
            rw [hdt]
            have hrne : tokenize r ≠ [] := by
              intro hr0
              rw [hr0] at hdt
              exact h0 (by rw [hdt]; rfl)
            rw [joinSp_cons_ne _ hrne]

/-- C9: `normalizeName` is total and pure, and equals the spec's token
pipeline: missing/empty input yields the empty string; otherwise the
name is lower-cased with `&` expanded to `and`, every maximal run of
non-alphanumerics becomes a separator, the whole-word stopwords
`the London city Camden market` are dropped, and the surviving tokens
are joined by single spaces with no leading/trailing whitespace. -/
theorem normalize_spec (name : Option (List Char)) :
    normalizeName name = specNormalizeName name := by
  cases name with
  | none => rfl
  | some s =>
    by_cases hs : s = []
    · subst hs
      rfl
    · show (if s = [] then []
        else trimSp (squashSp false (rmStops [] (squashNA false (expandAmp (lowerStr s))))))
        = _
      rw [if_neg hs]
      have h2 : alnumSp (squashNA false (expandAmp (lowerStr s))) :=
        alnumSp_squashNA (expandAmp (lowerStr s)) false
      have h4 : alnumSp (rmStops [] (squashNA false (expandAmp (lowerStr s)))) :=
        alnumSp_rmStops _ h2 [] (by intro e he; simp at he)
      rw [trim_squash_join (rmStops [] (squashNA false (expandAmp (lowerStr s)))).length _
        le_rfl h4]
      rw [show tokenize (rmStops [] (squashNA false (expandAmp (lowerStr s))))
          = (tokAux [] (squashNA false (expandAmp (lowerStr s)))).filter (fun t => !isStop t) from
        tokenize_rmStops _ h2 [] (by intro e he; simp at he)]
      rw [show tokAux [] (squashNA false (expandAmp (lowerStr s)))
          = tokAux [] (expandAmp (lowerStr s)) from (tokAux_squashNA (expandAmp (lowerStr s))).1 []]
      rfl

/-- Closed witness for `normalize_spec`, at a name exercising `&`,
punctuation, stopwords, and case. -/
theorem normalize_spec_witness :
    normalizeName (some "Bat & Ball, Camden Market!".toList)
      = specNormalizeName (some "Bat & Ball, Camden Market!".toList) :=
  normalize_spec _
